import Mathlib

/-!
Verification of the pipeline-orchestration core of ai-flow.

The definitions below are a shallow embedding of the Go sources:
* the run ledger (internal/store/store.go) as a list of rows with the
  SQL statements turned into explicit list operations,
* the subprocess runner's bounded output sink and result classification
  (internal/subprocess/runner.go),
* the branch-name sanitizer (internal/git/git.go),
* the orchestrator's exit-code decision logic and webhook drop check
  (the orchestrator package), modelled as the sequence of store/tracker
  actions it performs, with tracker calls assumed to succeed.

Timestamps are modelled as integers (the SQLite datetime strings compare
chronologically), byte strings as lists of naturals, and machine strings
as Lean strings or lists of characters (the sanitizer works on ASCII
classes, so character-wise modelling is byte-accurate there).
-/

namespace AIFlow

/-! ## Run ledger (internal/store/store.go) -/

/-- The `status` column: 'running', 'completed', 'failed' or 'timeout'. -/
inductive Status
  | running
  | completed
  | failed
  | timeout
deriving DecidableEq, Repr

/-- One row of the `runs` table (see `migrate` in store.go). -/
structure Run where
  id : Nat
  issueId : String
  stageName : String
  status : Status
  exitCode : Option Int
  output : Option String
  prUrl : Option String
  branchName : Option String
  error : Option String
  startedAt : Int
  endedAt : Option Int
deriving DecidableEq, Repr

/-- The predicate of the partial unique index `idx_runs_dedup`:
rows with this issue and stage whose status is 'running'. -/
def isRunningFor (i s : String) (r : Run) : Bool :=
  decide (r.issueId = i ∧ r.stageName = s ∧ r.status = Status.running)

/-- Whether some row with `(i, s, running)` exists (the conflict the
partial unique index detects for `INSERT OR IGNORE`). -/
def existsRunning (db : List Run) (i s : String) : Bool :=
  db.any (isRunningFor i s)

/-- The row inserted by `StartRun`: status 'running', every other
nullable column NULL, `started_at` defaulted to the current time. -/
def mkRunningRow (id : Nat) (i s : String) (now : Int) : Run :=
  ⟨id, i, s, Status.running, none, none, none, none, none, now, none⟩

/-- `Store.StartRun`: `INSERT OR IGNORE` guarded by the partial unique
index. Returns the new ledger, the id reported by `LastInsertId`, and
whether a row was inserted (`RowsAffected ≠ 0`). `newId` models the
AUTOINCREMENT id, `now` the `datetime('now')` default. -/
def StartRun (db : List Run) (i s : String) (newId : Nat) (now : Int) :
    List Run × Nat × Bool :=
  if existsRunning db i s then (db, 0, false)
  else (db ++ [mkRunningRow newId i s now], newId, true)

/-- `Store.CompleteRun`: set status 'completed', exit code, output,
PR url, branch name and `ended_at` on the row with this id. -/
def CompleteRun (db : List Run) (runId : Nat) (exitCode : Int)
    (output prUrl branchName : String) (now : Int) : List Run :=
  db.map fun r =>
    if r.id = runId then
      { r with
        status := Status.completed
        exitCode := some exitCode
        output := some output
        prUrl := some prUrl
        branchName := some branchName
        endedAt := some now }
    else r

/-- `Store.FailRun`: set status 'failed', exit code, error and `ended_at`. -/
def FailRun (db : List Run) (runId : Nat) (exitCode : Int) (errMsg : String)
    (now : Int) : List Run :=
  db.map fun r =>
    if r.id = runId then
      { r with
        status := Status.failed
        exitCode := some exitCode
        error := some errMsg
        endedAt := some now }
    else r

/-- `Store.TimeoutRun`: set status 'timeout', error and `ended_at`. -/
def TimeoutRun (db : List Run) (runId : Nat) (errMsg : String) (now : Int) :
    List Run :=
  db.map fun r =>
    if r.id = runId then
      { r with
        status := Status.timeout
        error := some errMsg
        endedAt := some now }
    else r

/-- The WHERE clause of `Store.CleanStaleRuns`:
`status = 'running' AND started_at < now - maxAge`. -/
def staleP (maxAge now : Int) (r : Run) : Bool :=
  decide (r.status = Status.running ∧ r.startedAt < now - maxAge)

/-- The SET clause of `Store.CleanStaleRuns`. -/
def recoverRow (now : Int) (r : Run) : Run :=
  { r with
    status := Status.failed
    error := some "stale run recovered on startup"
    endedAt := some now }

/-- `Store.CleanStaleRuns`: rewrite every stale running row and return
the new ledger together with `RowsAffected` (the number of rows the
UPDATE matched). -/
def CleanStaleRuns (db : List Run) (maxAge now : Int) : List Run × Nat :=
  (db.map fun r => if staleP maxAge now r then recoverRow now r else r,
   List.countP (staleP maxAge now) db)

/-- The WHERE clause of `Store.GetFirstBranchForIssue`:
`issue_id = i AND status = 'completed' AND exit_code = 0
AND branch_name IS NOT NULL AND branch_name != ''`. -/
def isBranchCandidate (i : String) (r : Run) : Bool :=
  decide (r.issueId = i ∧ r.status = Status.completed ∧ r.exitCode = some 0)
    && (match r.branchName with
        | some b => decide (b ≠ "")
        | none => false)

/-- One step of `ORDER BY started_at ASC LIMIT 1`: keep the row with the
smaller `started_at`, the earlier row of the scan winning ties. -/
def pickEarlier (acc : Option Run) (r : Run) : Option Run :=
  match acc with
  | none => some r
  | some b => if r.startedAt < b.startedAt then some r else some b

/-- `Store.GetFirstBranchForIssue`: the earliest candidate row,
`none` when the query returns no rows (`sql.ErrNoRows`). -/
def GetFirstBranchForIssue (db : List Run) (i : String) : Option Run :=
  (db.filter (isBranchCandidate i)).foldl pickEarlier none

/-- A row the git-flavoured executor writes on exit code 2
(`handleWithGit`: `CompleteRun(runID, 2, "skipped", "", branchName)`):
completed, exit code 2, non-empty branch name. -/
def runSkip : Run :=
  ⟨1, "ISS-1", "implement", Status.completed, some 2, some "skipped",
   some "", some "eng-1-add-login", none, 0, some 5⟩

/-- A completed successful run with a branch, as written by
`CompleteRun(runID, 0, out, prURL, branchName)`. -/
def runBranch : Run :=
  ⟨1, "ISS-1", "implement", Status.completed, some 0, some "out",
   some "", some "eng-1-add-login", none, 0, some 5⟩

/-! ## Subprocess runner (internal/subprocess/runner.go) -/

/-- `maxOutputBytes`: 1 MiB per stream. -/
def maxOutputBytes : Nat := 1 <<< 20

/-- `limitedWriter`: a byte buffer that stops retaining data after
`limit` bytes and counts what it dropped. Bytes are naturals. -/
structure LimitedWriter where
  buf : List Nat
  limit : Nat
  dropped : Nat
deriving DecidableEq, Repr

/-- `limitedWriter.Write`. The second component is the count the write
reports to its caller; the underlying `bytes.Buffer.Write` never fails,
so the Go error result is always nil and is not modelled. Note the
middle branch returns the count of the truncated slice
(`return w.buf.Write(p[:remaining])`), not `len(p)`. -/
def LimitedWriter.write (w : LimitedWriter) (p : List Nat) :
    LimitedWriter × Nat :=
  let remaining := w.limit - w.buf.length
  if remaining = 0 then
    ({ w with dropped := w.dropped + p.length }, p.length)
  else if p.length > remaining then
    ({ w with
        buf := w.buf ++ p.take remaining
        dropped := w.dropped + (p.length - remaining) }, remaining)
  else
    ({ w with buf := w.buf ++ p }, p.length)

/-- ASCII bytes of a Lean string (all marker text is ASCII). -/
def strBytes (s : String) : List Nat :=
  s.toList.map Char.toNat

/-- `limitedWriter.String`: retained bytes plus the truncation marker
when anything was dropped. -/
def LimitedWriter.render (w : LimitedWriter) : List Nat :=
  if w.dropped > 0 then
    w.buf ++ strBytes ("\n... (" ++ toString w.dropped ++ " bytes truncated)")
  else w.buf

/-- `subprocess.Result`. -/
structure Result where
  exitCode : Int
  stdout : String
  stderr : String
deriving DecidableEq, Repr

/-- The error value `cmd.Run()` can produce: nil, an `*exec.ExitError`
carrying the child's wait status (exit code, or -1 when the child was
killed by a signal, as happens when the timeout context kills it), or
any other (spawn/io) error. -/
inductive CmdErr
  | success
  | exitErr (code : Int)
  | ioErr (msg : String)
deriving DecidableEq, Repr

/-- The tail of `Runner.Run` after `cmd.Run()` returns: build the result
and classify the error. Mirrors the source's branch order: the
`*exec.ExitError` test comes first, the `ctx.Err() == DeadlineExceeded`
test only runs for other errors. `timeoutStr` is the formatted stage
timeout; the second component is the error returned to the caller. -/
def RunnerFinish (timeoutStr : String) (deadlineExceeded : Bool)
    (e : CmdErr) (stdoutS stderrS : String) : Result × Option String :=
  match e with
  | CmdErr.success => (⟨0, stdoutS, stderrS⟩, none)
  | CmdErr.exitErr c => (⟨c, stdoutS, stderrS⟩, none)
  | CmdErr.ioErr msg =>
    if deadlineExceeded then
      (⟨0, stdoutS, stderrS⟩, some ("subprocess timed out after " ++ timeoutStr))
    else
      (⟨0, stdoutS, stderrS⟩, some ("executing subprocess: " ++ msg))

/-! ## Branch-name sanitizer (internal/git/git.go, SanitizeBranchName) -/

/-- The character class `[a-z0-9]` of the `nonAlphanumeric` regexp. -/
def isLowerAlnum (c : Char) : Bool :=
  decide ((97 ≤ c.toNat ∧ c.toNat ≤ 122) ∨ (48 ≤ c.toNat ∧ c.toNat ≤ 57))

/-- ASCII lowercasing, the effect of `strings.ToLower` on the ASCII
range (non-ASCII characters are outside `[a-z0-9]` either way and are
collapsed to `-` by the next step). -/
def lcChar (c : Char) : Char :=
  if 65 ≤ c.toNat ∧ c.toNat ≤ 90 then Char.ofNat (c.toNat + 32) else c

/-- Characters that can appear in sanitizer output: `[a-z0-9-]`. -/
def charOK (c : Char) : Bool :=
  isLowerAlnum c || decide (c = '-')

/-- `nonAlphanumeric.ReplaceAllString(raw, "-")`: replace every maximal
run of characters outside `[a-z0-9]` by a single `-`. `prevDash` is true
while inside such a run whose dash was already emitted. -/
def collapseAux (prevDash : Bool) : List Char → List Char
  | [] => []
  | c :: cs =>
    if isLowerAlnum c then c :: collapseAux false cs
    else if prevDash then collapseAux prevDash cs
    else '-' :: collapseAux true cs

/-- `strings.Trim(_, "-")`, left side. -/
def trimLeft (l : List Char) : List Char :=
  l.dropWhile fun c => decide (c = '-')

/-- `strings.TrimRight(_, "-")` / the right side of `strings.Trim`:
remove the trailing run of dashes. -/
def trimRight : List Char → List Char
  | [] => []
  | c :: cs =>
    match trimRight cs with
    | [] => if c = '-' then [] else [c]
    | d :: ds => c :: d :: ds

/-- The value of the local `sanitized` after `strings.Trim(_, "-")`:
lowercase, collapse non-alphanumeric runs, trim dashes on both sides. -/
def preTrimmed (l : List Char) : List Char :=
  trimRight (trimLeft (collapseAux false (l.map lcChar)))

/-- `SanitizeBranchName` applied to an already concatenated raw string:
lowercase, collapse non-alphanumeric runs to `-`, trim dashes on both
sides, and if longer than 60 characters truncate to 60 and re-trim
trailing dashes. (At the truncation point every character is ASCII, so
Go's byte length and count of characters agree.) -/
def sanitize (l : List Char) : List Char :=
  if 60 < (preTrimmed l).length then trimRight ((preTrimmed l).take 60)
  else preTrimmed l

/-- `git.SanitizeBranchName(identifier, title)`:
the pipeline applied to `identifier + "-" + title`. -/
def SanitizeBranchName (identifier title : List Char) : List Char :=
  sanitize (identifier ++ '-' :: title)

/-- No two adjacent dashes. -/
def noDD : List Char → Bool
  | [] => true
  | [_] => true
  | c :: d :: rest => !(decide (c = '-') && decide (d = '-')) && noDD (d :: rest)

/-- The first character, if any, is not a dash. -/
def firstNotDash : List Char → Bool
  | [] => true
  | c :: _ => decide (c ≠ '-')

/-- The last character, if any, is not a dash. -/
def notEndsDash : List Char → Bool
  | [] => true
  | [c] => decide (c ≠ '-')
  | _ :: d :: rest => notEndsDash (d :: rest)

/-- Helper for the regular expression: a nonempty tail whose characters
are in `[a-z0-9-]` and whose last character is in `[a-z0-9]`. -/
def endsAlnumMid : List Char → Bool
  | [] => false
  | [c] => isLowerAlnum c
  | c :: d :: rest => charOK c && endsAlnumMid (d :: rest)

/-- Full match of the regular expression from the specification:
`[a-z0-9]([a-z0-9-]*[a-z0-9])?`. -/
def matchesBranchRegex : List Char → Bool
  | [] => false
  | [c] => isLowerAlnum c
  | c :: d :: rest => isLowerAlnum c && endsAlnumMid (d :: rest)

/-! ## Orchestrator decision logic (orchestrator package)

The executor for stages without a working copy is modelled as the list
of store/tracker calls it performs, in order. Tracker calls (state
resolution, state update, comment posting) are modelled as succeeding;
in the source a failed tracker call only logs and skips the calls that
follow it. -/

/-- The stage configuration fields the executor decisions read. -/
structure StageConfig where
  name : String
  nextState : String
  failureState : String
  waitForApproval : Bool
deriving DecidableEq, Repr

/-- One store or tracker call made by the executor. -/
inductive Action
  | completeRun (exitCode : Int) (output : String)
  | failRun (exitCode : Int) (errMsg : String)
  | timeoutRun (errMsg : String)
  | updateState (target : String)
  | postSuccessComment (stageName : String)
  | postFailureComment (stageName errMsg : String)
deriving DecidableEq, Repr

/-- What `runner.Run` handed back to the executor: a result, or an
error (timeout or spawn failure). -/
inductive RunnerOutcome
  | ok (r : Result)
  | err (msg : String)
deriving DecidableEq, Repr

/-- The executor's error-message choice in the default branch:
stderr, falling back to stdout when stderr is empty. -/
def errMsgOf (r : Result) : String :=
  if r.stderr = "" then r.stdout else r.stderr

/-- `Orchestrator.failAndTransition`: post the failure comment, then
transition to the failure state only when one is configured. -/
def failAndTransition (stage : StageConfig) (errMsg : String) : List Action :=
  Action.postFailureComment stage.name errMsg ::
    (if stage.failureState = "" then [] else [Action.updateState stage.failureState])

/-- `Orchestrator.transitionAndComment`: update the issue state to the
stage's next state, then post the success comment. -/
def transitionAndComment (stage : StageConfig) : List Action :=
  [Action.updateState stage.nextState, Action.postSuccessComment stage.name]

/-- `Orchestrator.handleWithoutGit` after the subprocess ran: the
ledger/tracker calls chosen from the runner outcome and exit code. -/
def handleWithoutGit (stage : StageConfig) (out : RunnerOutcome) : List Action :=
  match out with
  | RunnerOutcome.err msg => Action.timeoutRun msg :: failAndTransition stage msg
  | RunnerOutcome.ok r =>
    if r.exitCode = 0 then
      Action.completeRun 0 r.stdout ::
        (if stage.waitForApproval then [Action.postSuccessComment stage.name]
         else transitionAndComment stage)
    else if r.exitCode = 2 then
      [Action.completeRun 2 "skipped"]
    else
      Action.failRun r.exitCode (errMsgOf r) :: failAndTransition stage (errMsgOf r)

/-! ## Dispatcher state-change handling (Orchestrator.HandleWebhook) -/

/-- How far `HandleWebhook` gets with a state-change event before
running a stage. -/
inductive DispatchOutcome
  | dropNoStateChange
  | dropUnknownState
  | dropNoStage
  | proceed (stage : StageConfig)
deriving DecidableEq, Repr

/-- The head of `Orchestrator.HandleWebhook` for a state-change event.
`prev` is `updatedFrom.StateID` (the empty string when the payload has
no `updatedFrom` or no `stateId` in it), `cur` is the issue's current
state id; `resolve` is the tracker's state-name cache and `findStage`
the pipeline lookup by trigger state. -/
def dispatchStateChange (resolve : String → Option String)
    (findStage : String → Option StageConfig)
    (prev cur : String) : DispatchOutcome :=
  if prev = "" then DispatchOutcome.dropNoStateChange
  else
    match resolve cur with
    | none => DispatchOutcome.dropUnknownState
    | some stateName =>
      match findStage stateName with
      | none => DispatchOutcome.dropNoStage
      | some stage => DispatchOutcome.proceed stage

/-! ## Ledger lemmas -/

theorem countP_map_le {α : Type} (p : α → Bool) (f : α → α)
    (h : ∀ a, p (f a) = true → p a = true) (l : List α) :
    List.countP p (l.map f) ≤ List.countP p l := by
  rw [List.countP_map]
  refine List.countP_mono_left ?_
  intro a _ hpa
  exact h a hpa

/-- Updating a row away from 'running' never increases the number of
running rows for any `(issueId, stageName)`. -/
theorem countP_update_le (db : List Run) (runId : Nat) (i s : String)
    (upd : Run → Run)
    (hupd : ∀ r, (upd r).issueId = r.issueId ∧ (upd r).stageName = r.stageName
      ∧ (upd r).status ≠ Status.running) :
    List.countP (isRunningFor i s)
      (db.map fun r => if r.id = runId then upd r else r) ≤
    List.countP (isRunningFor i s) db := by
  apply countP_map_le
  intro r hr
  by_cases hid : r.id = runId
  · exfalso
    simp only [hid, if_pos] at hr
    have h3 := (hupd r).2.2
    simp only [isRunningFor, decide_eq_true_eq] at hr
    exact h3 hr.2.2
  · simpa [hid] using hr

/-- Ledger states reachable from the empty ledger by any sequence of
claim (`StartRun`) / `CompleteRun` / `FailRun` / `TimeoutRun` calls. -/
inductive Reachable : List Run → Prop
  | init : Reachable []
  | start (db : List Run) (i s : String) (newId : Nat) (now : Int) :
      Reachable db → Reachable (StartRun db i s newId now).1
  | complete (db : List Run) (runId : Nat) (exitCode : Int)
      (output prUrl branchName : String) (now : Int) :
      Reachable db → Reachable (CompleteRun db runId exitCode output prUrl branchName now)
  | fail (db : List Run) (runId : Nat) (exitCode : Int) (errMsg : String) (now : Int) :
      Reachable db → Reachable (FailRun db runId exitCode errMsg now)
  | timeoutStep (db : List Run) (runId : Nat) (errMsg : String) (now : Int) :
      Reachable db → Reachable (TimeoutRun db runId errMsg now)

theorem reachable_single_active (db : List Run) (h : Reachable db) :
    ∀ i s, List.countP (isRunningFor i s) db ≤ 1 := by
  induction h with
  | init => intro i s; simp
  | start db i0 s0 newId now _ ih =>
    intro i s
    unfold StartRun
    by_cases hex : existsRunning db i0 s0
    · simpa [hex] using ih i s
    · simp only [hex, Bool.false_eq_true, if_false]
      rw [List.countP_append]
      by_cases hnew : isRunningFor i s (mkRunningRow newId i0 s0 now) = true
      · have hi : i0 = i ∧ s0 = s := by
          simp only [isRunningFor, mkRunningRow, decide_eq_true_eq] at hnew
          exact ⟨hnew.1, hnew.2.1⟩
        have hzero : List.countP (isRunningFor i s) db = 0 := by
          rw [List.countP_eq_zero]
          intro r hr hrun
          rw [← hi.1, ← hi.2] at hrun
          have : existsRunning db i0 s0 = true := List.any_eq_true.mpr ⟨r, hr, hrun⟩
          exact hex this
        simp [hzero, hnew]
      · simp only [Bool.not_eq_true] at hnew
        simpa [hnew] using ih i s
  | complete db runId exitCode output prUrl branchName now _ ih =>
    intro i s
    refine le_trans (countP_update_le db runId i s _ ?_) (ih i s)
    intro r; exact ⟨rfl, rfl, by simp⟩
  | fail db runId exitCode errMsg now _ ih =>
    intro i s
    refine le_trans (countP_update_le db runId i s _ ?_) (ih i s)
    intro r; exact ⟨rfl, rfl, by simp⟩
  | timeoutStep db runId errMsg now _ ih =>
    intro i s
    refine le_trans (countP_update_le db runId i s _ ?_) (ih i s)
    intro r; exact ⟨rfl, rfl, by simp⟩

/-! ## Query lemmas for GetFirstBranchForIssue -/

theorem pickEarlier_spec (acc : Option Run) (c : Run) :
    ∃ b, pickEarlier acc c = some b ∧
      b.startedAt ≤ c.startedAt ∧
      (∀ a, acc = some a → b.startedAt ≤ a.startedAt) ∧
      (b = c ∨ acc = some b) := by
  cases acc with
  | none =>
    refine ⟨c, rfl, le_refl _, ?_, Or.inl rfl⟩
    intro a ha; exact Option.noConfusion ha
  | some a0 =>
    by_cases hlt : c.startedAt < a0.startedAt
    · refine ⟨c, by simp only [pickEarlier, if_pos hlt], le_refl _, ?_, Or.inl rfl⟩
      intro a ha
      injection ha with hh
      subst hh
      exact le_of_lt hlt
    · refine ⟨a0, by simp only [pickEarlier, if_neg hlt], le_of_not_lt hlt, ?_, Or.inr rfl⟩
      intro a ha
      injection ha with hh
      subst hh
      exact le_refl _

theorem foldl_pickEarlier_some :
    ∀ (l : List Run) (acc : Option Run) (r : Run),
      l.foldl pickEarlier acc = some r →
      (acc = some r ∨ r ∈ l) ∧
      (∀ x ∈ l, r.startedAt ≤ x.startedAt) ∧
      (∀ a, acc = some a → r.startedAt ≤ a.startedAt) := by
  intro l
  induction l with
  | nil =>
    intro acc r h
    refine ⟨Or.inl h, ?_, ?_⟩
    · intro x hx; exact absurd hx (List.not_mem_nil x)
    · intro a ha
      simp only [List.foldl_nil] at h
      rw [h] at ha
      injection ha with hh
      subst hh
      exact le_refl _
  | cons c l ih =>
    intro acc r h
    rw [List.foldl_cons] at h
    obtain ⟨h1, h2, h3⟩ := ih (pickEarlier acc c) r h
    obtain ⟨b, hb, hbc, hba, hbor⟩ := pickEarlier_spec acc c
    have hrb : r.startedAt ≤ b.startedAt := h3 b hb
    refine ⟨?_, ?_, ?_⟩
    · rcases h1 with h1 | h1
      · rw [hb] at h1
        injection h1 with hh
        subst hh
        rcases hbor with hbc2 | hacc
        · subst hbc2
          exact Or.inr (List.mem_cons_self _ _)
        · exact Or.inl hacc
      · exact Or.inr (List.mem_cons_of_mem c h1)
    · intro x hx
      rcases List.mem_cons.mp hx with hx | hx
      · subst hx; exact le_trans hrb hbc
      · exact h2 x hx
    · intro a ha
      exact le_trans hrb (hba a ha)

theorem foldl_pickEarlier_ne_none :
    ∀ (l : List Run) (acc : Option Run), l.foldl pickEarlier acc = none →
      acc = none ∧ l = [] := by
  intro l
  induction l with
  | nil => intro acc h; exact ⟨h, rfl⟩
  | cons c l ih =>
    intro acc h
    rw [List.foldl_cons] at h
    obtain ⟨hpc, _⟩ := ih _ h
    obtain ⟨b, hb, _⟩ := pickEarlier_spec acc c
    rw [hb] at hpc
    exact Option.noConfusion hpc

theorem foldl_pickEarlier_keep :
    ∀ (l : List Run) (r : Run), (∀ x ∈ l, r.startedAt ≤ x.startedAt) →
      l.foldl pickEarlier (some r) = some r := by
  intro l
  induction l with
  | nil => intro r _; rfl
  | cons c l ih =>
    intro r h
    rw [List.foldl_cons]
    have hc : r.startedAt ≤ c.startedAt := h c (List.mem_cons_self c l)
    have hpe : pickEarlier (some r) c = some r := by
      simp only [pickEarlier, if_neg (not_lt.mpr hc)]
    rw [hpe]
    exact ih r (fun x hx => h x (List.mem_cons_of_mem c hx))

/-! ## Claim theorems: run ledger -/

/-- C1: `StartRun(issueId, stageName)` inserts a fresh 'running' row and
returns `(newId, true)` exactly when no `(issueId, stageName, running)`
row exists, and returns `(0, false)` leaving the ledger unchanged
otherwise; consequently every ledger reachable by claim/complete/fail/
timeout operations has at most one running row per `(issueId,
stageName)`. -/
theorem startRun_dedup_single_active :
    (∀ (db : List Run) (i s : String) (newId : Nat) (now : Int),
      (existsRunning db i s = true → StartRun db i s newId now = (db, 0, false)) ∧
      (existsRunning db i s = false →
        StartRun db i s newId now = (db ++ [mkRunningRow newId i s now], newId, true))) ∧
    (∀ db : List Run, Reachable db → ∀ i s : String,
      List.countP (isRunningFor i s) db ≤ 1) := by
  constructor
  · intro db i s newId now
    constructor <;> intro h <;> simp [StartRun, h]
  · exact fun db h => reachable_single_active db h

/-- Witness for C1 at the empty ledger. -/
theorem startRun_dedup_single_active_witness :
    StartRun [] "ISS-1" "implement" 1 0 =
      ([mkRunningRow 1 "ISS-1" "implement" 0], 1, true) ∧
    List.countP (isRunningFor "ISS-1" "implement") [] ≤ 1 :=
  ⟨(startRun_dedup_single_active.1 [] "ISS-1" "implement" 1 0).2 rfl,
   startRun_dedup_single_active.2 [] Reachable.init "ISS-1" "implement"⟩

/-- C3: after `CleanStaleRuns(maxAge)` no running row older than
`now - maxAge` remains, every stale running row is rewritten in place to
failed with error 'stale run recovered on startup' and a set `ended_at`,
and the returned count is the number of rows rewritten. -/
theorem cleanStaleRuns_recovers :
    ∀ (db : List Run) (maxAge now : Int),
      (∀ r ∈ (CleanStaleRuns db maxAge now).1,
        ¬(r.status = Status.running ∧ r.startedAt < now - maxAge)) ∧
      (∀ (i : Nat) (r : Run), db[i]? = some r → staleP maxAge now r = true →
        (CleanStaleRuns db maxAge now).1[i]? = some (recoverRow now r)) ∧
      (CleanStaleRuns db maxAge now).2 = List.countP (staleP maxAge now) db := by
  intro db maxAge now
  refine ⟨?_, ?_, rfl⟩
  · intro r hr
    simp only [CleanStaleRuns, List.mem_map] at hr
    obtain ⟨r0, _, hrr⟩ := hr
    by_cases hs : staleP maxAge now r0 = true
    · rw [if_pos hs] at hrr
      subst hrr
      intro hcon
      exact absurd hcon.1 (by simp [recoverRow])
    · rw [if_neg hs] at hrr
      subst hrr
      intro hcon
      exact hs (by simpa [staleP] using hcon)
  · intro i r hi hs
    simp only [CleanStaleRuns]
    rw [List.getElem?_map, hi]
    simp [hs]

/-- Witness for C3: a 100-minute-old running row is rewritten. -/
theorem cleanStaleRuns_recovers_witness :
    (CleanStaleRuns [mkRunningRow 1 "ISS-1" "implement" 0] 10 100).1[0]? =
      some (recoverRow 100 (mkRunningRow 1 "ISS-1" "implement" 0)) :=
  (cleanStaleRuns_recovers [mkRunningRow 1 "ISS-1" "implement" 0] 10 100).2.1
    0 _ rfl (by decide)

/-- C9: `CleanStaleRuns` is frame-preserving: the table keeps its length
and every row that is not a stale running row is unchanged in place. -/
theorem cleanStaleRuns_frame :
    ∀ (db : List Run) (maxAge now : Int),
      (CleanStaleRuns db maxAge now).1.length = db.length ∧
      ∀ (i : Nat) (r : Run), db[i]? = some r → staleP maxAge now r = false →
        (CleanStaleRuns db maxAge now).1[i]? = some r := by
  intro db maxAge now
  refine ⟨by simp [CleanStaleRuns], ?_⟩
  intro i r hi hs
  simp only [CleanStaleRuns]
  rw [List.getElem?_map, hi]
  simp [hs]

/-- Witness for C9: a recent running row survives untouched. -/
theorem cleanStaleRuns_frame_witness :
    (CleanStaleRuns [mkRunningRow 1 "ISS-1" "implement" 99] 10 100).1[0]? =
      some (mkRunningRow 1 "ISS-1" "implement" 99) :=
  (cleanStaleRuns_frame [mkRunningRow 1 "ISS-1" "implement" 99] 10 100).2
    0 _ rfl (by decide)

/-- C4 counterexample: `runSkip` is a completed run with a non-empty
branch name, yet `GetFirstBranchForIssue` returns nothing for its issue,
because the query additionally requires `exit_code = 0` and `runSkip`
completed with exit code 2. -/
theorem getFirstBranchForIssue_counterexample :
    runSkip.status = Status.completed ∧
    runSkip.branchName = some "eng-1-add-login" ∧
    ("eng-1-add-login" : String) ≠ "" ∧
    GetFirstBranchForIssue [runSkip] "ISS-1" = none := by
  refine ⟨rfl, rfl, by decide, rfl⟩

/-- C4 (amended): among completed runs with exit code 0 and a non-empty
branch name, `GetFirstBranchForIssue` returns one with minimal
`started_at`, returns `none` exactly when no such run exists, and its
answer is stable under appending runs that started no earlier. -/
theorem getFirstBranchForIssue_earliest :
    ∀ (db : List Run) (i : String),
      (∀ r : Run, GetFirstBranchForIssue db i = some r →
        isBranchCandidate i r = true ∧ r ∈ db ∧
        ∀ x ∈ db, isBranchCandidate i x = true → r.startedAt ≤ x.startedAt) ∧
      (GetFirstBranchForIssue db i = none →
        ∀ x ∈ db, isBranchCandidate i x = false) ∧
      (∀ (r : Run) (ext : List Run), GetFirstBranchForIssue db i = some r →
        (∀ x ∈ ext, r.startedAt ≤ x.startedAt) →
        GetFirstBranchForIssue (db ++ ext) i = some r) := by
  intro db i
  refine ⟨?_, ?_, ?_⟩
  · intro r h
    obtain ⟨h1, h2, _⟩ := foldl_pickEarlier_some _ _ _ h
    have hr_mem : r ∈ db.filter (isBranchCandidate i) := by
      rcases h1 with h1 | h1
      · exact absurd h1 (by simp)
      · exact h1
    have hmf := List.mem_filter.mp hr_mem
    exact ⟨hmf.2, hmf.1, fun x hx hcx => h2 x (List.mem_filter.mpr ⟨hx, hcx⟩)⟩
  · intro h x hx
    obtain ⟨_, hnil⟩ := foldl_pickEarlier_ne_none _ _ h
    by_contra hc
    rw [Bool.not_eq_false] at hc
    have hmem : x ∈ db.filter (isBranchCandidate i) := List.mem_filter.mpr ⟨hx, hc⟩
    rw [hnil] at hmem
    exact absurd hmem (List.not_mem_nil x)
  · intro r ext h hle
    unfold GetFirstBranchForIssue at h ⊢
    rw [List.filter_append, List.foldl_append, h]
    exact foldl_pickEarlier_keep _ r
      (fun x hx => hle x (List.mem_filter.mp hx).1)

/-- Witness for C4: a singleton ledger with one successful branch run. -/
theorem getFirstBranchForIssue_earliest_witness :
    isBranchCandidate "ISS-1" runBranch = true ∧ runBranch ∈ [runBranch] ∧
    ∀ x ∈ [runBranch], isBranchCandidate "ISS-1" x = true →
      runBranch.startedAt ≤ x.startedAt :=
  (getFirstBranchForIssue_earliest [runBranch] "ISS-1").1 runBranch (by decide)

/-! ## Claim theorems: stage executor, runner, dispatcher -/

/-- The default (failure) branch of `handleWithoutGit`, shared shape. -/
theorem handleWithoutGit_default (stage : StageConfig) (r : Result)
    (h0 : r.exitCode ≠ 0) (h2 : r.exitCode ≠ 2) :
    handleWithoutGit stage (RunnerOutcome.ok r) =
      Action.failRun r.exitCode (errMsgOf r) ::
      Action.postFailureComment stage.name (errMsgOf r) ::
      (if stage.failureState = "" then []
       else [Action.updateState stage.failureState]) := by
  simp [handleWithoutGit, failAndTransition, h0, h2]

/-- C2: for a stage without a working copy, exit code 0 completes the
run and (without an approval gate) transitions to the next state with a
success comment, or (with the gate) only posts the comment and performs
no transition; exit code 2 completes the run as "skipped" with no
transition and no comment; any other exit code fails the run, posts a
failure comment, and transitions to the failure state exactly when one
is configured. -/
theorem handleWithoutGit_decision :
    ∀ (stage : StageConfig) (r : Result),
      (r.exitCode = 0 → stage.waitForApproval = false →
        handleWithoutGit stage (RunnerOutcome.ok r) =
          [Action.completeRun 0 r.stdout, Action.updateState stage.nextState,
           Action.postSuccessComment stage.name]) ∧
      (r.exitCode = 0 → stage.waitForApproval = true →
        handleWithoutGit stage (RunnerOutcome.ok r) =
          [Action.completeRun 0 r.stdout, Action.postSuccessComment stage.name] ∧
        ∀ t, Action.updateState t ∉ handleWithoutGit stage (RunnerOutcome.ok r)) ∧
      (r.exitCode = 2 →
        handleWithoutGit stage (RunnerOutcome.ok r) =
          [Action.completeRun 2 "skipped"]) ∧
      (r.exitCode ≠ 0 → r.exitCode ≠ 2 →
        handleWithoutGit stage (RunnerOutcome.ok r) =
          Action.failRun r.exitCode (errMsgOf r) ::
          Action.postFailureComment stage.name (errMsgOf r) ::
          (if stage.failureState = "" then []
           else [Action.updateState stage.failureState])) := by
  intro stage r
  refine ⟨?_, ?_, ?_, ?_⟩
  · intro h0 hw
    simp [handleWithoutGit, transitionAndComment, h0, hw]
  · intro h0 hw
    have heq : handleWithoutGit stage (RunnerOutcome.ok r) =
        [Action.completeRun 0 r.stdout, Action.postSuccessComment stage.name] := by
      simp [handleWithoutGit, h0, hw]
    refine ⟨heq, ?_⟩
    intro t
    rw [heq]
    simp
  · intro h2
    have h0 : r.exitCode ≠ 0 := by rw [h2]; decide
    simp [handleWithoutGit, h0, h2]
  · exact handleWithoutGit_default stage r

/-- Witness for C2: exit 0 without approval gate transitions and
comments. -/
theorem handleWithoutGit_decision_witness :
    handleWithoutGit ⟨"implement", "Security Review", "", false⟩
        (RunnerOutcome.ok ⟨0, "out", ""⟩) =
      [Action.completeRun 0 "out", Action.updateState "Security Review",
       Action.postSuccessComment "implement"] :=
  (handleWithoutGit_decision ⟨"implement", "Security Review", "", false⟩
    ⟨0, "out", ""⟩).1 rfl rfl

/-- C10: in the failure branch the message recorded by `FailRun` and
carried into the failure comment is stderr, falling back to stdout
exactly when stderr is empty; no other message is ever used there. -/
theorem failure_errMsg_fallback :
    ∀ (stage : StageConfig) (r : Result), r.exitCode ≠ 0 → r.exitCode ≠ 2 →
      errMsgOf r = (if r.stderr = "" then r.stdout else r.stderr) ∧
      Action.failRun r.exitCode (errMsgOf r) ∈
        handleWithoutGit stage (RunnerOutcome.ok r) ∧
      Action.postFailureComment stage.name (errMsgOf r) ∈
        handleWithoutGit stage (RunnerOutcome.ok r) ∧
      (∀ (c : Int) (e : String),
        Action.failRun c e ∈ handleWithoutGit stage (RunnerOutcome.ok r) →
        e = errMsgOf r) ∧
      (∀ (n e : String),
        Action.postFailureComment n e ∈ handleWithoutGit stage (RunnerOutcome.ok r) →
        e = errMsgOf r) := by
  intro stage r h0 h2
  have heq := handleWithoutGit_default stage r h0 h2
  refine ⟨rfl, ?_, ?_, ?_, ?_⟩
  · rw [heq]; exact List.mem_cons_self _ _
  · rw [heq]; exact List.mem_cons_of_mem _ (List.mem_cons_self _ _)
  · intro c e he
    rw [heq] at he
    by_cases hf : stage.failureState = "" <;> simp [hf] at he <;> tauto
  · intro n e he
    rw [heq] at he
    by_cases hf : stage.failureState = "" <;> simp [hf] at he <;> tauto

/-- Witness for C10: empty stderr falls back to stdout. -/
theorem failure_errMsg_fallback_witness :
    Action.failRun 1 "sout" ∈
      handleWithoutGit ⟨"implement", "Next", "Fail", false⟩
        (RunnerOutcome.ok ⟨1, "sout", ""⟩) := by
  have h := failure_errMsg_fallback ⟨"implement", "Next", "Fail", false⟩
    ⟨1, "sout", ""⟩ (by decide) (by decide)
  simpa [errMsgOf] using h.2.1

/-- C7: when the timeout context kills the child, `cmd.Run` reports an
`*exec.ExitError` (signal kill, exit code -1) while the context reports
DeadlineExceeded; because the runner tests the ExitError case first, it
returns a valid result with exit code -1 and nil error, so the executor
records the run as failed, never as 'timeout', and the 'subprocess timed
out after' error is produced only for non-ExitError errors. -/
theorem runnerTimeout_misclassified :
    RunnerFinish "5s" true (CmdErr.exitErr (-1)) "" "" =
      (⟨-1, "", ""⟩, none) ∧
    handleWithoutGit ⟨"implement", "Security Review", "", false⟩
        (RunnerOutcome.ok ⟨-1, "", ""⟩) =
      [Action.failRun (-1) "", Action.postFailureComment "implement" ""] ∧
    RunnerFinish "5s" true (CmdErr.ioErr "spawn") "" "" =
      (⟨0, "", ""⟩, some "subprocess timed out after 5s") := by
  refine ⟨rfl, by decide, rfl⟩

/-- C8 counterexample: an event whose previous and current state ids are
equal (and non-empty) is not dropped: the dispatcher resolves the state,
looks up a stage and proceeds to claim and execute it. -/
theorem dispatch_equal_states_proceeds :
    dispatchStateChange (fun _ => some "Todo")
        (fun _ => some ⟨"plan", "In Progress", "", true⟩)
        "state-1" "state-1" =
      DispatchOutcome.proceed ⟨"plan", "In Progress", "", true⟩ := by
  decide

/-- C8 (amended): the dispatcher drops a state-change event before any
stage lookup exactly when `previousStateId` is absent (empty); equality
of previous and current state ids is never checked. -/
theorem dispatch_drop_iff_prev_empty :
    ∀ (resolve : String → Option String)
      (findStage : String → Option StageConfig) (prev cur : String),
      dispatchStateChange resolve findStage prev cur =
        DispatchOutcome.dropNoStateChange ↔ prev = "" := by
  intro resolve findStage prev cur
  constructor
  · intro h
    by_contra hp
    rw [dispatchStateChange, if_neg hp] at h
    split at h
    · exact DispatchOutcome.noConfusion h
    · split at h
      · exact DispatchOutcome.noConfusion h
      · exact DispatchOutcome.noConfusion h
  · intro h
    simp [dispatchStateChange, h]

/-- C5: the write that straddles the remaining capacity reports the
truncated count (here 1) instead of `len(p)` (here 2) with a nil error —
a short write, which the standard library's copier treats as an error,
so the capture pipe is torn down instead of silently discarding. -/
theorem limitedWriter_short_write :
    LimitedWriter.write ⟨[97], 2, 0⟩ [98, 99] = (⟨[97, 98], 2, 1⟩, 1) ∧
    (LimitedWriter.write ⟨[97], 2, 0⟩ [98, 99]).2 ≠
      ([98, 99] : List Nat).length := by
  constructor <;> decide

/-! ## Sanitizer lemmas -/

theorem isLowerAlnum_ne_dash (c : Char) (h : isLowerAlnum c = true) :
    c ≠ '-' := by
  intro heq
  rw [heq] at h
  exact absurd h (by decide)

theorem charOK_of_alnum (c : Char) (h : isLowerAlnum c = true) :
    charOK c = true := by
  simp [charOK, h]

theorem dash_of_charOK (c : Char) (hok : charOK c = true)
    (hna : isLowerAlnum c = false) : c = '-' := by
  simp [charOK, hna] at hok
  exact hok

theorem lcChar_fix (c : Char) (h : charOK c = true) : lcChar c = c := by
  simp only [charOK, isLowerAlnum, Bool.or_eq_true, decide_eq_true_eq] at h
  rcases h with h | rfl
  · unfold lcChar
    rw [if_neg]
    omega
  · decide

theorem map_lcChar_id (l : List Char) (h : l.all charOK = true) :
    l.map lcChar = l := by
  induction l with
  | nil => rfl
  | cons c cs ih =>
    rw [List.all_cons, Bool.and_eq_true] at h
    rw [List.map_cons, lcChar_fix c h.1, ih h.2]

theorem collapse_all_charOK (l : List Char) :
    ∀ b : Bool, (collapseAux b l).all charOK = true := by
  induction l with
  | nil => intro b; rfl
  | cons c cs ih =>
    intro b
    by_cases hc : isLowerAlnum c = true
    · simp only [collapseAux, if_pos hc, List.all_cons, Bool.and_eq_true]
      exact ⟨charOK_of_alnum c hc, ih false⟩
    · rw [Bool.not_eq_true] at hc
      cases b with
      | true => simpa only [collapseAux, hc, Bool.false_eq_true, if_false,
          if_pos] using ih true
      | false =>
        simp only [collapseAux, hc, Bool.false_eq_true, if_false,
          List.all_cons, Bool.and_eq_true]
        exact ⟨by decide, ih true⟩

theorem noDD_cons_of (c : Char) (l : List Char) (h : noDD l = true)
    (hd : firstNotDash l = true ∨ c ≠ '-') : noDD (c :: l) = true := by
  cases l with
  | nil => rfl
  | cons d ds =>
    simp only [noDD, Bool.and_eq_true, Bool.not_eq_eq_eq_not, Bool.not_true,
      Bool.and_eq_false_iff, decide_eq_false_iff_not]
    refine ⟨?_, h⟩
    rcases hd with hd | hd
    · simp only [firstNotDash, decide_eq_true_eq] at hd
      exact Or.inr hd
    · exact Or.inl hd

theorem noDD_tail (c : Char) (l : List Char) (h : noDD (c :: l) = true) :
    noDD l = true := by
  cases l with
  | nil => rfl
  | cons d ds =>
    simp only [noDD, Bool.and_eq_true] at h
    exact h.2

theorem collapse_noDD (l : List Char) :
    noDD (collapseAux false l) = true ∧ noDD (collapseAux true l) = true ∧
    firstNotDash (collapseAux true l) = true := by
  induction l with
  | nil => exact ⟨rfl, rfl, rfl⟩
  | cons c cs ih =>
    obtain ⟨ihf, iht, ihh⟩ := ih
    by_cases hc : isLowerAlnum c = true
    · have hne := isLowerAlnum_ne_dash c hc
      have hn : noDD (c :: collapseAux false cs) = true :=
        noDD_cons_of c _ ihf (Or.inr hne)
      refine ⟨?_, ?_, ?_⟩
      · simpa only [collapseAux, if_pos hc] using hn
      · simpa only [collapseAux, if_pos hc] using hn
      · simp only [collapseAux, if_pos hc, firstNotDash, decide_eq_true_eq]
        exact hne
    · rw [Bool.not_eq_true] at hc
      refine ⟨?_, ?_, ?_⟩
      · simp only [collapseAux, hc, Bool.false_eq_true, if_false]
        exact noDD_cons_of '-' _ iht (Or.inl ihh)
      · simpa only [collapseAux, hc, Bool.false_eq_true, if_false, if_pos]
          using iht
      · simpa only [collapseAux, hc, Bool.false_eq_true, if_false, if_pos]
          using ihh

theorem collapse_fix (l : List Char) (hall : l.all charOK = true)
    (hnd : noDD l = true) :
    collapseAux false l = l ∧
    (firstNotDash l = true → collapseAux true l = l) := by
  induction l with
  | nil => exact ⟨rfl, fun _ => rfl⟩
  | cons c cs ih =>
    rw [List.all_cons, Bool.and_eq_true] at hall
    obtain ⟨ihf, iht⟩ := ih hall.2 (noDD_tail c cs hnd)
    by_cases hc : isLowerAlnum c = true
    · constructor
      · simp only [collapseAux, if_pos hc, ihf]
      · intro _
        simp only [collapseAux, if_pos hc, ihf]
    · rw [Bool.not_eq_true] at hc
      have hcd : c = '-' :=
        dash_of_charOK c hall.1 hc
      have hfn : firstNotDash cs = true := by
        cases cs with
        | nil => rfl
        | cons d ds =>
          subst hcd
          simp only [noDD, Bool.and_eq_true, Bool.not_eq_eq_eq_not,
            Bool.not_true, Bool.and_eq_false_iff, decide_eq_false_iff_not]
            at hnd
          rcases hnd.1 with h | h
          · exact absurd trivial h
          · simp only [firstNotDash, decide_eq_true_eq]
            exact h
      constructor
      · subst hcd
        simp only [collapseAux, hc, Bool.false_eq_true, if_false,
          iht hfn]
      · intro hf
        subst hcd
        simp [firstNotDash] at hf

theorem trimLeft_all (l : List Char) (h : l.all charOK = true) :
    (trimLeft l).all charOK = true := by
  induction l with
  | nil => rfl
  | cons c cs ih =>
    rw [List.all_cons, Bool.and_eq_true] at h
    by_cases hc : c = '-'
    · simpa [trimLeft, List.dropWhile_cons, hc]
        using ih h.2
    · simp only [trimLeft, List.dropWhile_cons, decide_eq_true_eq, hc,
        if_false, List.all_cons, Bool.and_eq_true]
      exact ⟨h.1, h.2⟩

theorem trimLeft_noDD (l : List Char) (h : noDD l = true) :
    noDD (trimLeft l) = true := by
  induction l with
  | nil => rfl
  | cons c cs ih =>
    by_cases hc : c = '-'
    · simpa [trimLeft, List.dropWhile_cons, hc]
        using ih (noDD_tail c cs h)
    · simpa only [trimLeft, List.dropWhile_cons, decide_eq_true_eq, hc,
        if_false] using h

theorem trimLeft_firstNotDash (l : List Char) :
    firstNotDash (trimLeft l) = true := by
  induction l with
  | nil => rfl
  | cons c cs ih =>
    by_cases hc : c = '-'
    · simpa [trimLeft, List.dropWhile_cons, hc]
        using ih
    · simp only [trimLeft, List.dropWhile_cons, decide_eq_true_eq, hc,
        if_false, firstNotDash, decide_eq_true_eq]
      exact hc

theorem trimLeft_fix (l : List Char) (h : firstNotDash l = true) :
    trimLeft l = l := by
  cases l with
  | nil => rfl
  | cons c cs =>
    simp only [firstNotDash, decide_eq_true_eq] at h
    simp only [trimLeft, List.dropWhile_cons, decide_eq_true_eq, h, if_false]

theorem trimRight_prefix (l : List Char) : ∃ t, l = trimRight l ++ t := by
  induction l with
  | nil => exact ⟨[], rfl⟩
  | cons c cs ih =>
    obtain ⟨t, ht⟩ := ih
    cases h : trimRight cs with
    | nil =>
      by_cases hc : c = '-'
      · refine ⟨c :: cs, ?_⟩
        simp only [trimRight, h, hc, if_pos, List.nil_append]
      · refine ⟨t, ?_⟩
        rw [h, List.nil_append] at ht
        simp only [trimRight, h, hc, if_false, List.cons_append,
          List.nil_append]
        rw [← ht]
    | cons d ds =>
      refine ⟨t, ?_⟩
      rw [h] at ht
      simp only [trimRight, h, List.cons_append]
      rw [← List.cons_append, ← ht]

theorem all_append_left (l t : List Char) (p : Char → Bool)
    (h : (l ++ t).all p = true) : l.all p = true := by
  rw [List.all_append, Bool.and_eq_true] at h
  exact h.1

theorem noDD_append_left (l : List Char) :
    ∀ t : List Char, noDD (l ++ t) = true → noDD l = true := by
  induction l with
  | nil => intro t _; rfl
  | cons c cs ih =>
    intro t h
    cases cs with
    | nil => rfl
    | cons d ds =>
      simp only [List.cons_append, noDD, Bool.and_eq_true] at h ⊢
      exact ⟨h.1, ih t (by simpa only [List.cons_append] using h.2)⟩

theorem firstNotDash_append_left (l t : List Char)
    (h : firstNotDash (l ++ t) = true) : firstNotDash l = true := by
  cases l with
  | nil => rfl
  | cons c cs => simpa only [List.cons_append, firstNotDash] using h

theorem trimRight_notEndsDash (l : List Char) :
    notEndsDash (trimRight l) = true := by
  induction l with
  | nil => rfl
  | cons c cs ih =>
    cases h : trimRight cs with
    | nil =>
      by_cases hc : c = '-'
      · simp only [trimRight, h, hc, if_pos]
        rfl
      · simp only [trimRight, h, hc, if_false, notEndsDash,
          decide_eq_true_eq]
        exact hc
    | cons d ds =>
      rw [h] at ih
      simpa only [trimRight, h, notEndsDash] using ih

theorem trimRight_fix (l : List Char) (h : notEndsDash l = true) :
    trimRight l = l := by
  induction l with
  | nil => rfl
  | cons c cs ih =>
    cases cs with
    | nil =>
      simp only [notEndsDash, decide_eq_true_eq] at h
      simp only [trimRight, h, if_false]
    | cons d ds =>
      have hcs : notEndsDash (d :: ds) = true := by
        simpa only [notEndsDash] using h
      have hstep : trimRight (c :: d :: ds) =
          match trimRight (d :: ds) with
          | [] => if c = '-' then [] else [c]
          | e :: es => c :: e :: es := rfl
      rw [hstep, ih hcs]

theorem take_all (l : List Char) (n : Nat) (h : l.all charOK = true) :
    (l.take n).all charOK = true := by
  rw [List.all_eq_true] at h ⊢
  intro x hx
  exact h x ((List.take_sublist n l).subset hx)

theorem noDD_take (l : List Char) :
    noDD l = true → ∀ n : Nat, noDD (l.take n) = true := by
  induction l with
  | nil =>
    intro _ n
    rw [List.take_nil]
    rfl
  | cons c cs ih =>
    intro h n
    cases n with
    | zero => rfl
    | succ m =>
      rw [List.take_succ_cons]
      have htail := ih (noDD_tail c cs h) m
      apply noDD_cons_of c _ htail
      cases cs with
      | nil =>
        left
        rw [List.take_nil]
        rfl
      | cons d ds =>
        cases m with
        | zero => left; rfl
        | succ k =>
          rw [List.take_succ_cons]
          simp only [noDD, Bool.and_eq_true, Bool.not_eq_eq_eq_not,
            Bool.not_true, Bool.and_eq_false_iff, decide_eq_false_iff_not] at h
          rcases h.1 with hcne | hdne
          · right; exact hcne
          · left
            simp only [firstNotDash, decide_eq_true_eq]
            exact hdne

theorem firstNotDash_take (l : List Char) (n : Nat)
    (h : firstNotDash l = true) : firstNotDash (l.take n) = true := by
  cases l with
  | nil =>
    rw [List.take_nil]
    rfl
  | cons c cs =>
    cases n with
    | zero => rfl
    | succ m =>
      rw [List.take_succ_cons]
      simpa only [firstNotDash] using h

theorem trimRight_length_le (l : List Char) :
    (trimRight l).length ≤ l.length := by
  obtain ⟨t, ht⟩ := trimRight_prefix l
  conv_rhs => rw [ht]
  rw [List.length_append]
  omega

theorem preTrimmed_good (l : List Char) :
    (preTrimmed l).all charOK = true ∧ noDD (preTrimmed l) = true ∧
    firstNotDash (preTrimmed l) = true ∧ notEndsDash (preTrimmed l) = true := by
  unfold preTrimmed
  have a0 : (collapseAux false (l.map lcChar)).all charOK = true :=
    collapse_all_charOK _ false
  have n0 : noDD (collapseAux false (l.map lcChar)) = true :=
    (collapse_noDD _).1
  have a1 := trimLeft_all _ a0
  have n1 := trimLeft_noDD _ n0
  have f1 := trimLeft_firstNotDash (collapseAux false (l.map lcChar))
  obtain ⟨t, ht⟩ := trimRight_prefix (trimLeft (collapseAux false (l.map lcChar)))
  refine ⟨?_, ?_, ?_, trimRight_notEndsDash _⟩
  · apply all_append_left _ t
    rw [← ht]
    exact a1
  · apply noDD_append_left _ t
    rw [← ht]
    exact n1
  · apply firstNotDash_append_left _ t
    rw [← ht]
    exact f1

theorem sanitize_good (l : List Char) :
    (sanitize l).all charOK = true ∧ noDD (sanitize l) = true ∧
    firstNotDash (sanitize l) = true ∧ notEndsDash (sanitize l) = true ∧
    (sanitize l).length ≤ 60 := by
  obtain ⟨a2, n2, f2, e2⟩ := preTrimmed_good l
  unfold sanitize
  by_cases hlen : 60 < (preTrimmed l).length
  · rw [if_pos hlen]
    have a3 : ((preTrimmed l).take 60).all charOK = true := take_all _ 60 a2
    have n3 : noDD ((preTrimmed l).take 60) = true := noDD_take _ n2 60
    have f3 : firstNotDash ((preTrimmed l).take 60) = true :=
      firstNotDash_take _ 60 f2
    obtain ⟨t, ht⟩ := trimRight_prefix ((preTrimmed l).take 60)
    refine ⟨?_, ?_, ?_, trimRight_notEndsDash _, ?_⟩
    · apply all_append_left _ t
      rw [← ht]
      exact a3
    · apply noDD_append_left _ t
      rw [← ht]
      exact n3
    · apply firstNotDash_append_left _ t
      rw [← ht]
      exact f3
    · have h1 := trimRight_length_le ((preTrimmed l).take 60)
      have h2 : ((preTrimmed l).take 60).length ≤ 60 := by
        rw [List.length_take]
        exact min_le_left _ _
      omega
  · rw [if_neg hlen]
    exact ⟨a2, n2, f2, e2, by omega⟩

theorem sanitize_fix (y : List Char) (ha : y.all charOK = true)
    (hn : noDD y = true) (hf : firstNotDash y = true)
    (he : notEndsDash y = true) (hlen : y.length ≤ 60) :
    sanitize y = y := by
  have hpre : preTrimmed y = y := by
    unfold preTrimmed
    rw [map_lcChar_id y ha, (collapse_fix y ha hn).1, trimLeft_fix y hf,
      trimRight_fix y he]
  unfold sanitize
  rw [hpre, if_neg (by omega)]

theorem endsAlnumMid_of (m : List Char) (hne : m ≠ [])
    (ha : m.all charOK = true) (he : notEndsDash m = true) :
    endsAlnumMid m = true := by
  induction m with
  | nil => exact absurd rfl hne
  | cons d rest ih =>
    rw [List.all_cons, Bool.and_eq_true] at ha
    cases rest with
    | nil =>
      simp only [notEndsDash, decide_eq_true_eq] at he
      simp only [endsAlnumMid]
      by_cases hd : isLowerAlnum d = true
      · exact hd
      · rw [Bool.not_eq_true] at hd
        exact absurd (dash_of_charOK d ha.1 hd) he
    | cons e rest2 =>
      have hery : notEndsDash (e :: rest2) = true := by
        simpa only [notEndsDash] using he
      simp only [endsAlnumMid, Bool.and_eq_true]
      exact ⟨ha.1, ih (by simp) ha.2 hery⟩

theorem matches_of_good (y : List Char) (hne : y ≠ [])
    (ha : y.all charOK = true) (hf : firstNotDash y = true)
    (he : notEndsDash y = true) : matchesBranchRegex y = true := by
  cases y with
  | nil => exact absurd rfl hne
  | cons c cs =>
    rw [List.all_cons, Bool.and_eq_true] at ha
    simp only [firstNotDash, decide_eq_true_eq] at hf
    have hca : isLowerAlnum c = true := by
      by_cases h : isLowerAlnum c = true
      · exact h
      · rw [Bool.not_eq_true] at h
        exact absurd (dash_of_charOK c ha.1 h) hf
    cases cs with
    | nil => simpa only [matchesBranchRegex] using hca
    | cons d ds =>
      have hcs : notEndsDash (d :: ds) = true := by
        simpa only [notEndsDash] using he
      simp only [matchesBranchRegex, Bool.and_eq_true]
      exact ⟨hca, endsAlnumMid_of (d :: ds) (by simp) ha.2 hcs⟩

/-! ## Claim theorems: branch-name sanitizer -/

/-- C6 counterexample: on the empty identifier and title the raw input
is a lone dash and the sanitizer returns the empty string, which does
not match the regular expression `[a-z0-9]([a-z0-9-]*[a-z0-9])?` (that
expression requires at least one character). -/
theorem sanitize_empty_counterexample :
    SanitizeBranchName [] [] = [] ∧
    matchesBranchRegex (SanitizeBranchName [] []) = false := by
  constructor <;> rfl

/-- C6 (amended): the sanitizer is idempotent, its output has length at
most 60, and its output is either empty or matches
`[a-z0-9]([a-z0-9-]*[a-z0-9])?`. -/
theorem sanitize_idem_regex_len :
    ∀ l : List Char,
      sanitize (sanitize l) = sanitize l ∧
      (sanitize l = [] ∨ matchesBranchRegex (sanitize l) = true) ∧
      (sanitize l).length ≤ 60 := by
  intro l
  obtain ⟨a, n, f, e, hl⟩ := sanitize_good l
  refine ⟨sanitize_fix _ a n f e hl, ?_, hl⟩
  by_cases hy : sanitize l = []
  · exact Or.inl hy
  · exact Or.inr (matches_of_good _ hy a f e)

end AIFlow
